import Mathlib

set_option maxHeartbeats 1000000

/-!
Shallow embedding of `src/statistic.py` (descriptive statistics for tabular
data): per-column numeric statistics with Tukey outlier fences, per-column
categorical statistics built from a descending value-count ranking, a
per-column overview (missingness, uniqueness, duplicate rows), and the
combined per-column analysis `analyze_dataset`.

Modelling conventions:
* numeric cell values are rationals `ℚ`; a missing entry (`NaN`) is `none`;
* a function that raises in the source (`scipy.stats.describe` on an empty
  input, `Series.idxmax` on an empty value-count table) returns `none`;
* `np.percentile(data, p)` with the default linear interpolation is embedded
  as `percentileOf`: linear interpolation at virtual index `(n - 1) * p / 100`
  over the ascending sort of the data;
* the source stores `std = sqrt(variance)` and moment-based skewness/kurtosis;
  those values are irrational in general, so the record keeps the rational
  moment `variance` (exactly `desc.variance` of the source, ddof = 1) in their
  place.  No claim under verification mentions `std`, skewness or kurtosis;
* Python's `round(x, 2)` is embedded as exact round-half-to-even at two
  decimals over `ℚ`; the division `missing_count / value_count` for a zero-row
  column produces `NaN` in the source (numpy `0 / 0`), embedded as `none`.
-/

/-- Declared element type of a column, as far as the dtype dispatch in the
source inspects it (`pd.api.types.is_numeric_dtype`). -/
inductive DType
  | numericType
  | objectType
  deriving DecidableEq, Repr

/-- The cells of one column: a numeric column holds rationals, a categorical
column holds strings; `none` is a missing value (`NaN`). -/
inductive ColData
  | numeric (vals : List (Option ℚ))
  | categorical (vals : List (Option String))
  deriving DecidableEq, Repr

/-- A named column (`pd.Series` with its dtype). -/
structure Column where
  name : String
  data : ColData
  deriving DecidableEq, Repr

/-- A table (`pd.DataFrame`): an ordered list of named columns. -/
structure Table where
  cols : List Column
  deriving DecidableEq, Repr

/-- Number of entries of a column, missing ones included (`len(df[column])`). -/
def Column.length (c : Column) : ℕ :=
  match c.data with
  | ColData.numeric vs => vs.length
  | ColData.categorical vs => vs.length

/-- The declared dtype of a column. -/
def Column.dtype (c : Column) : DType :=
  match c.data with
  | ColData.numeric _ => DType.numericType
  | ColData.categorical _ => DType.objectType

/-- `df[column].isnull().sum()`: the number of missing entries. -/
def missingCount (c : Column) : ℕ :=
  match c.data with
  | ColData.numeric vs => vs.countP fun o => o.isNone
  | ColData.categorical vs => vs.countP fun o => o.isNone

/-- `df[column].nunique()`: distinct non-missing values (pandas excludes
`NaN` from `nunique` by default). -/
def uniqueData (c : Column) : ℕ :=
  match c.data with
  | ColData.numeric vs => (vs.filterMap id).dedup.length
  | ColData.categorical vs => (vs.filterMap id).dedup.length

/-- Length of `df[column].dropna()`: the number of non-missing entries. -/
def nonMissingCount (c : Column) : ℕ :=
  match c.data with
  | ColData.numeric vs => (vs.filterMap id).length
  | ColData.categorical vs => (vs.filterMap id).length

/-- One cell of a row, tagged with the column kind (used for row-duplicate
detection; pandas treats two `NaN` cells as equal in `duplicated`). -/
inductive Cell
  | num (v : Option ℚ)
  | cat (v : Option String)
  deriving DecidableEq, Repr

/-- The cell of column `c` at row index `i`. -/
def Column.cell (c : Column) (i : ℕ) : Cell :=
  match c.data with
  | ColData.numeric vs => Cell.num (vs.getD i none)
  | ColData.categorical vs => Cell.cat (vs.getD i none)

/-- Row count of the table (all columns of a `DataFrame` share one length). -/
def Table.nRows (t : Table) : ℕ :=
  match t.cols with
  | [] => 0
  | c :: _ => c.length

/-- Row `i` of the table, as the list of its cells in column order. -/
def Table.rowAt (t : Table) (i : ℕ) : List Cell :=
  t.cols.map fun c => c.cell i

/-- `df.duplicated().sum()`: the number of rows that are exact duplicates of
an earlier row. -/
def Table.duplicatedCount (t : Table) : ℕ :=
  (List.range t.nRows).countP fun i =>
    decide (∃ j ∈ List.range i, t.rowAt j = t.rowAt i)

/-- Round a rational to the nearest integer, ties to even (the rounding of
Python's built-in `round`). -/
def roundHalfEven (q : ℚ) : ℤ :=
  if q - ⌊q⌋ < 1 / 2 then ⌊q⌋
  else if 1 / 2 < q - ⌊q⌋ then ⌊q⌋ + 1
  else if ⌊q⌋ % 2 = 0 then ⌊q⌋ else ⌊q⌋ + 1

/-- `round(x, 2)`: round to two decimal places, ties to even. -/
def round2 (q : ℚ) : ℚ :=
  (roundHalfEven (q * 100) : ℚ) / 100

/-- `round(missing_count / value_count * 100, 2)`.  With `value_count = 0`
the source divides `np.int64(0)` by `0`, which yields `NaN` (with a runtime
warning), embedded as `none`. -/
def missingPct (missing total : ℕ) : Option ℚ :=
  if total = 0 then none
  else some (round2 ((missing : ℚ) / (total : ℚ) * 100))

/-- Ascending sort of the data, as `np.percentile` performs internally. -/
def sortData (data : List ℚ) : List ℚ :=
  List.insertionSort (fun a b => a ≤ b) data

/-- Linear interpolation into the sorted list `s` at virtual index `h`:
`s[⌊h⌋] + (h - ⌊h⌋) * (s[⌈h⌉] - s[⌊h⌋])`. -/
def interpAt (s : List ℚ) (h : ℚ) : ℚ :=
  s.getD (⌊h⌋.toNat) 0 + (h - (⌊h⌋.toNat : ℚ)) * (s.getD (⌈h⌉.toNat) 0 - s.getD (⌊h⌋.toNat) 0)

/-- `np.percentile(data, p)` with the default linear interpolation method:
interpolate the ascending sort at virtual index `(n - 1) * p / 100`. -/
def percentileOf (data : List ℚ) (p : ℚ) : ℚ :=
  interpAt (sortData data) (((data.length - 1 : ℕ) : ℚ) * p / 100)

/-- Minimum of a list of rationals (`desc.minmax[0]`; the `0` default is
never reached on the non-empty inputs the callers pass). -/
def listMin : List ℚ → ℚ
  | [] => 0
  | x :: xs => xs.foldl min x

/-- Maximum of a list of rationals (`desc.minmax[1]`). -/
def listMax : List ℚ → ℚ
  | [] => 0
  | x :: xs => xs.foldl max x

/-- Arithmetic mean (`desc.mean`). -/
def meanOf (data : List ℚ) : ℚ :=
  data.sum / (data.length : ℚ)

/-- Sample variance with denominator `n - 1` (`desc.variance`, ddof = 1);
`none` models the `NaN` scipy produces for a single observation. -/
def varianceOf (data : List ℚ) : Option ℚ :=
  if 2 ≤ data.length then
    some ((data.map fun x => (x - meanOf data) ^ 2).sum / ((data.length - 1 : ℕ) : ℚ))
  else none

/-- `iqr = q3 - q1`. -/
def iqrOf (data : List ℚ) : ℚ :=
  percentileOf data 75 - percentileOf data 25

/-- `lower_fence = q1 - tukey_factor * iqr`. -/
def lowerFence (data : List ℚ) (k : ℚ) : ℚ :=
  percentileOf data 25 - k * iqrOf data

/-- `upper_fence = q3 + tukey_factor * iqr`. -/
def upperFence (data : List ℚ) (k : ℚ) : ℚ :=
  percentileOf data 75 + k * iqrOf data

/-- The dictionary returned by `descriptive_stats_numeric` (see the module
comment for the treatment of `std`, skewness and kurtosis). -/
structure NumericStatsRecord where
  column : String
  n : ℕ
  min : ℚ
  max : ℚ
  mean : ℚ
  variance : Option ℚ
  median : ℚ
  q1 : ℚ
  q3 : ℚ
  iqr : ℚ
  lower_fence : ℚ
  upper_fence : ℚ
  n_outliers : ℕ
  deriving DecidableEq, Repr

/-- The record body of `descriptive_stats_numeric` on non-empty data. -/
def numRecord (name : String) (data : List ℚ) (k : ℚ) : NumericStatsRecord :=
  { column := name
    n := data.length
    min := listMin data
    max := listMax data
    mean := meanOf data
    variance := varianceOf data
    median := percentileOf data 50
    q1 := percentileOf data 25
    q3 := percentileOf data 75
    iqr := iqrOf data
    lower_fence := lowerFence data k
    upper_fence := upperFence data k
    n_outliers := (data.filter fun v => decide (v < lowerFence data k ∨ v > upperFence data k)).length }

/-- `descriptive_stats_numeric(data, tukey_factor)`.  On empty data
`scipy.stats.describe` raises (`none` here); otherwise the record is
returned.  The source gives `tukey_factor` the default `1.5`; call sites
that rely on the default pass `3 / 2` explicitly here. -/
def descriptive_stats_numeric (name : String) (data : List ℚ) (k : ℚ) : Option NumericStatsRecord :=
  if data.length = 0 then none else some (numRecord name data k)

/-- The descending-by-count order on value-count pairs used by
`Series.value_counts`. -/
def countDescRel (a b : String × ℕ) : Prop := b.2 ≤ a.2

instance : DecidableRel countDescRel := fun a b => Nat.decLe b.2 a.2

instance : IsTotal (String × ℕ) countDescRel := ⟨fun a b => Nat.le_total b.2 a.2⟩

instance : IsTrans (String × ℕ) countDescRel := ⟨fun _ _ _ h1 h2 => Nat.le_trans h2 h1⟩

/-- `data.value_counts()`: one `(value, frequency)` pair per distinct value,
sorted by frequency in descending order (the tie order among equal
frequencies is incidental in the source as well). -/
def valueCounts (data : List String) : List (String × ℕ) :=
  List.insertionSort countDescRel (data.dedup.map fun v => (v, data.count v))

/-- The dictionary returned by `descriptive_stats_categorical`. -/
structure CategoricalStatsRecord where
  column : String
  n : ℕ
  n_unique : ℕ
  mode : String
  mode_count : ℕ
  second_most_common : Option String
  second_most_common_count : Option ℕ
  deriving DecidableEq, Repr

/-- `descriptive_stats_categorical(data)`: `value_counts.idxmax()` raises on
an empty series (`none` here); otherwise the head of the descending
value-count ranking is the mode and its count the maximum frequency, and the
second entry (when present) gives the second-most-common fields. -/
def descriptive_stats_categorical (name : String) (data : List String) : Option CategoricalStatsRecord :=
  match valueCounts data with
  | [] => none
  | (m, mc) :: rest =>
      some { column := name
             n := data.length
             n_unique := data.dedup.length
             mode := m
             mode_count := mc
             second_most_common := rest.head?.map Prod.fst
             second_most_common_count := rest.head?.map Prod.snd }

/-- One row of `overview_df`. -/
structure OverviewRecord where
  column : String
  types : DType
  unique_data : ℕ
  missing_value : ℕ
  missing_percentage : Option ℚ
  duplicated : ℕ
  deriving DecidableEq, Repr

/-- The overview row of one column (`dup` is the table-level
`df.duplicated().sum()`, recomputed identically for every column in the
source loop). -/
def overviewRecord (dup : ℕ) (c : Column) : OverviewRecord :=
  { column := c.name
    types := c.dtype
    unique_data := uniqueData c
    missing_value := missingCount c
    missing_percentage := missingPct (missingCount c) c.length
    duplicated := dup }

/-- `overview_df(df)`: one overview row per column, in column order. -/
def overview_df (t : Table) : List OverviewRecord :=
  t.cols.map fun c => overviewRecord t.duplicatedCount c

/-- One row of `analyze_dataset`: the union of the numeric, categorical and
overview fields; fields not applicable to the column's kind are `none`. -/
structure CombinedRecord where
  column : String
  n : ℕ
  min : Option ℚ
  max : Option ℚ
  mean : Option ℚ
  variance : Option ℚ
  median : Option ℚ
  q1 : Option ℚ
  q3 : Option ℚ
  iqr : Option ℚ
  lower_fence : Option ℚ
  upper_fence : Option ℚ
  n_outliers : Option ℕ
  n_unique : ℕ
  mode : Option String
  mode_count : Option ℕ
  second_most_common : Option String
  second_most_common_count : Option ℕ
  unique_data : ℕ
  missing_value : ℕ
  missing_percentage : Option ℚ
  duplicated : ℕ
  deriving DecidableEq, Repr

/-- Merge a numeric stats record with the overview data of its column
(the numeric branch of the combining loop in `analyze_dataset`; `n_unique`
falls back to the overview's `unique_data` because the numeric dictionary
has no `n_unique` key). -/
def combinedNumeric (dup : ℕ) (c : Column) (s : NumericStatsRecord) : CombinedRecord :=
  { column := c.name
    n := s.n
    min := some s.min
    max := some s.max
    mean := some s.mean
    variance := s.variance
    median := some s.median
    q1 := some s.q1
    q3 := some s.q3
    iqr := some s.iqr
    lower_fence := some s.lower_fence
    upper_fence := some s.upper_fence
    n_outliers := some s.n_outliers
    n_unique := uniqueData c
    mode := none
    mode_count := none
    second_most_common := none
    second_most_common_count := none
    unique_data := uniqueData c
    missing_value := missingCount c
    missing_percentage := missingPct (missingCount c) c.length
    duplicated := dup }

/-- Merge a categorical stats record with the overview data of its column
(the categorical branch of the combining loop in `analyze_dataset`). -/
def combinedCategorical (dup : ℕ) (c : Column) (s : CategoricalStatsRecord) : CombinedRecord :=
  { column := c.name
    n := s.n
    min := none
    max := none
    mean := none
    variance := none
    median := none
    q1 := none
    q3 := none
    iqr := none
    lower_fence := none
    upper_fence := none
    n_outliers := none
    n_unique := s.n_unique
    mode := some s.mode
    mode_count := some s.mode_count
    second_most_common := s.second_most_common
    second_most_common_count := s.second_most_common_count
    unique_data := uniqueData c
    missing_value := missingCount c
    missing_percentage := missingPct (missingCount c) c.length
    duplicated := dup }

/-- The body of one iteration of the `analyze_dataset` loop: drop missing
values, dispatch on the declared dtype, compute the matching stats record
(with the default fence factor `1.5`) and merge it with the overview data.
`none` propagates the per-column failure on zero non-missing values. -/
def combinedOfColumn (dup : ℕ) (c : Column) : Option CombinedRecord :=
  match c.data with
  | ColData.numeric vs =>
      (descriptive_stats_numeric c.name (vs.filterMap id) (3 / 2)).map (combinedNumeric dup c)
  | ColData.categorical vs =>
      (descriptive_stats_categorical c.name (vs.filterMap id)).map (combinedCategorical dup c)

/-- The `analyze_dataset` loop over the column list: rows accumulate in
column order and the first per-column failure aborts the whole call. -/
def analyzeColumns (dup : ℕ) : List Column → Option (List CombinedRecord)
  | [] => some []
  | c :: cs =>
      match combinedOfColumn dup c, analyzeColumns dup cs with
      | some r, some rs => some (r :: rs)
      | _, _ => none

/-- `analyze_dataset(df)`: one combined record per column, in column order;
an uncaught per-column error yields no result table at all. -/
def analyze_dataset (t : Table) : Option (List CombinedRecord) :=
  analyzeColumns t.duplicatedCount t.cols

/-! ### Helper lemmas -/

theorem descNum_some {name : String} {data : List ℚ} {k : ℚ} {r : NumericStatsRecord}
    (h : descriptive_stats_numeric name data k = some r) :
    data ≠ [] ∧ r = numRecord name data k := by
  unfold descriptive_stats_numeric at h
  split at h
  · cases h
  · next hlen =>
      exact ⟨fun hd => hlen (by simp [hd]), (Option.some.inj h).symm⟩

theorem sorted_getD_mono {s : List ℚ} (hs : List.Sorted (fun a b => a ≤ b) s)
    {i j : ℕ} (hij : i ≤ j) (hj : j < s.length) : s.getD i 0 ≤ s.getD j 0 := by
  have hi : i < s.length := lt_of_le_of_lt hij hj
  rw [List.getD_eq_getElem s 0 hi, List.getD_eq_getElem s 0 hj]
  rcases eq_or_lt_of_le hij with rfl | hlt
  · exact le_refl _
  · have := List.pairwise_iff_get.mp hs ⟨i, hi⟩ ⟨j, hj⟩ (Fin.mk_lt_mk.mpr hlt)
    simpa using this

theorem ceil_le_len {s : List ℚ} {h : ℚ} (hb : h ≤ (s.length : ℚ) - 1) :
    ⌈h⌉ ≤ (s.length : ℤ) - 1 := by
  rw [Int.ceil_le]
  push_cast
  linarith

theorem ceil_toNat_lt {s : List ℚ} {h : ℚ} (h0 : 0 ≤ h) (hb : h ≤ (s.length : ℚ) - 1) :
    ⌈h⌉.toNat < s.length := by
  have h1 := ceil_le_len (s := s) hb
  have h2 : (0 : ℤ) ≤ ⌈h⌉ := le_trans (Int.floor_nonneg.mpr h0) (Int.floor_le_ceil h)
  omega

theorem floor_toNat_cast {h : ℚ} (h0 : 0 ≤ h) : ((⌊h⌋.toNat : ℚ)) = (⌊h⌋ : ℚ) := by
  exact_mod_cast Int.toNat_of_nonneg (Int.floor_nonneg.mpr h0)

theorem interpAt_bounds {s : List ℚ} (hs : List.Sorted (fun a b => a ≤ b) s) {h : ℚ}
    (h0 : 0 ≤ h) (h1 : h ≤ (s.length : ℚ) - 1) :
    s.getD (⌊h⌋.toNat) 0 ≤ interpAt s h ∧ interpAt s h ≤ s.getD (⌈h⌉.toNat) 0 := by
  have hcn : ⌈h⌉.toNat < s.length := ceil_toNat_lt h0 h1
  have hfn : ⌊h⌋.toNat ≤ ⌈h⌉.toNat := by
    have := Int.floor_le_ceil h
    omega
  have hAB : s.getD (⌊h⌋.toNat) 0 ≤ s.getD (⌈h⌉.toNat) 0 := sorted_getD_mono hs hfn hcn
  have hfc := floor_toNat_cast h0
  have hg0 : 0 ≤ h - (⌊h⌋.toNat : ℚ) := by
    rw [hfc]
    linarith [Int.floor_le h]
  have hg1 : h - (⌊h⌋.toNat : ℚ) ≤ 1 := by
    rw [hfc]
    linarith [Int.lt_floor_add_one h]
  unfold interpAt
  constructor
  · have := mul_nonneg hg0 (sub_nonneg.mpr hAB)
    linarith
  · have := mul_le_mul_of_nonneg_right hg1 (sub_nonneg.mpr hAB)
    linarith

theorem interpAt_mono {s : List ℚ} (hs : List.Sorted (fun a b => a ≤ b) s) {h₁ h₂ : ℚ}
    (h0 : 0 ≤ h₁) (h12 : h₁ ≤ h₂) (h2 : h₂ ≤ (s.length : ℚ) - 1) :
    interpAt s h₁ ≤ interpAt s h₂ := by
  have h01 : 0 ≤ h₂ := le_trans h0 h12
  have h1b : h₁ ≤ (s.length : ℚ) - 1 := le_trans h12 h2
  have hb1 := interpAt_bounds hs h0 h1b
  have hb2 := interpAt_bounds hs h01 h2
  have hf0 : (0 : ℤ) ≤ ⌊h₁⌋ := Int.floor_nonneg.mpr h0
  rcases eq_or_lt_of_le (Int.floor_mono h12) with heq | hlt
  · -- same floor cell
    rcases eq_or_lt_of_le (Int.floor_le h₁) with hfe | hflt
    · -- h₁ is exactly its floor, so interpAt s h₁ collapses to the floor entry
      have hz : h₁ - (⌊h₁⌋.toNat : ℚ) = 0 := by
        rw [floor_toNat_cast h0]
        linarith
      have hcollapse : interpAt s h₁ = s.getD (⌊h₁⌋.toNat) 0 := by
        unfold interpAt
        rw [hz]
        ring
      rw [hcollapse, heq]
      exact hb2.1
    · -- h₁ lies strictly inside the cell, hence both ceilings are floor + 1
      have hc₁ : ⌈h₁⌉ = ⌊h₁⌋ + 1 := by
        have hle := Int.ceil_le_floor_add_one h₁
        have hgt : ⌊h₁⌋ < ⌈h₁⌉ := by
          exact_mod_cast lt_of_lt_of_le hflt (Int.le_ceil h₁)
        omega
      have hflt₂ : (⌊h₂⌋ : ℚ) < h₂ := by
        rw [← heq]
        exact lt_of_lt_of_le hflt h12
      have hc₂ : ⌈h₂⌉ = ⌊h₂⌋ + 1 := by
        have hle := Int.ceil_le_floor_add_one h₂
        have hgt : ⌊h₂⌋ < ⌈h₂⌉ := by
          exact_mod_cast lt_of_lt_of_le hflt₂ (Int.le_ceil h₂)
        omega
      have hBA : 0 ≤ s.getD (⌈h₁⌉.toNat) 0 - s.getD (⌊h₁⌋.toNat) 0 := by
        apply sub_nonneg.mpr
        apply sorted_getD_mono hs
        · have := Int.floor_le_ceil h₁
          omega
        · exact ceil_toNat_lt h0 h1b
      have hidxf : ⌊h₂⌋.toNat = ⌊h₁⌋.toNat := by rw [heq]
      have hidxc : ⌈h₂⌉.toNat = ⌈h₁⌉.toNat := by rw [hc₁, hc₂, heq]
      unfold interpAt
      rw [hidxf, hidxc]
      have hg12 : h₁ - (⌊h₁⌋.toNat : ℚ) ≤ h₂ - (⌊h₁⌋.toNat : ℚ) := by linarith
      have := mul_le_mul_of_nonneg_right hg12 hBA
      linarith
  · -- the cells are distinct: chain through the boundary entries
    have hc1f2 : ⌈h₁⌉.toNat ≤ ⌊h₂⌋.toNat := by
      have := Int.ceil_le_floor_add_one h₁
      omega
    have hf2n : ⌊h₂⌋.toNat < s.length := by
      have hfl : ⌊h₂⌋ ≤ (s.length : ℤ) - 1 :=
        le_trans (Int.floor_le_ceil h₂) (ceil_le_len h2)
      omega
    calc interpAt s h₁ ≤ s.getD (⌈h₁⌉.toNat) 0 := hb1.2
      _ ≤ s.getD (⌊h₂⌋.toNat) 0 := sorted_getD_mono hs hc1f2 hf2n
      _ ≤ interpAt s h₂ := hb2.1

theorem length_sortData (data : List ℚ) : (sortData data).length = data.length :=
  (List.perm_insertionSort _ data).length_eq

theorem sorted_sortData (data : List ℚ) : List.Sorted (fun a b => a ≤ b) (sortData data) :=
  List.sorted_insertionSort _ data

theorem percentileOf_mono (data : List ℚ) (hne : data ≠ []) {p₁ p₂ : ℚ}
    (hp0 : 0 ≤ p₁) (hp12 : p₁ ≤ p₂) (hp2 : p₂ ≤ 100) :
    percentileOf data p₁ ≤ percentileOf data p₂ := by
  have hlen : 1 ≤ data.length := List.length_pos.mpr hne
  have hcast : ((data.length - 1 : ℕ) : ℚ) = (data.length : ℚ) - 1 := by
    rw [Nat.cast_sub hlen]
    norm_num
  have hn0 : (0 : ℚ) ≤ ((data.length - 1 : ℕ) : ℚ) := by positivity
  unfold percentileOf
  apply interpAt_mono (sorted_sortData data)
  · exact div_nonneg (mul_nonneg hn0 hp0) (by norm_num)
  · have hmul : ((data.length - 1 : ℕ) : ℚ) * p₁ ≤ ((data.length - 1 : ℕ) : ℚ) * p₂ :=
      mul_le_mul_of_nonneg_left hp12 hn0
    linarith
  · rw [length_sortData, ← hcast]
    have hmul : ((data.length - 1 : ℕ) : ℚ) * p₂ ≤ ((data.length - 1 : ℕ) : ℚ) * 100 :=
      mul_le_mul_of_nonneg_left hp2 hn0
    linarith

/-! ### Claims C1, C2, C3, C4, C9 -/

/-- Claim C1: for every non-empty numeric column and every fence factor `k`,
`descriptive_stats_numeric` returns a record with
`lower_fence = q1 - k * iqr` and `upper_fence = q3 + k * iqr`, where
`iqr = q3 - q1` and `q1`, `q3` are the 25th and 75th linear-interpolation
percentiles of the input (the source defaults `k` to `1.5`). -/
theorem C1_fence_formula (name : String) (data : List ℚ) (k : ℚ) (r : NumericStatsRecord)
    (h : descriptive_stats_numeric name data k = some r) :
    r.lower_fence = r.q1 - k * r.iqr ∧ r.upper_fence = r.q3 + k * r.iqr ∧
    r.iqr = r.q3 - r.q1 ∧ r.q1 = percentileOf data 25 ∧ r.q3 = percentileOf data 75 := by
  obtain ⟨-, rfl⟩ := descNum_some h
  exact ⟨rfl, rfl, rfl, rfl, rfl⟩

theorem C1_fence_formula_witness :
    (numRecord "x" [(0 : ℚ), 1] 1).lower_fence
        = (numRecord "x" [(0 : ℚ), 1] 1).q1 - 1 * (numRecord "x" [(0 : ℚ), 1] 1).iqr ∧
    (numRecord "x" [(0 : ℚ), 1] 1).upper_fence
        = (numRecord "x" [(0 : ℚ), 1] 1).q3 + 1 * (numRecord "x" [(0 : ℚ), 1] 1).iqr ∧
    (numRecord "x" [(0 : ℚ), 1] 1).iqr
        = (numRecord "x" [(0 : ℚ), 1] 1).q3 - (numRecord "x" [(0 : ℚ), 1] 1).q1 ∧
    (numRecord "x" [(0 : ℚ), 1] 1).q1 = percentileOf [(0 : ℚ), 1] 25 ∧
    (numRecord "x" [(0 : ℚ), 1] 1).q3 = percentileOf [(0 : ℚ), 1] 75 :=
  C1_fence_formula "x" [0, 1] 1 (numRecord "x" [0, 1] 1) rfl

/-- Claim C2: the `n_outliers` field equals exactly the number of input
values strictly below the lower fence or strictly above the upper fence. -/
theorem C2_outlier_count (name : String) (data : List ℚ) (k : ℚ) (r : NumericStatsRecord)
    (h : descriptive_stats_numeric name data k = some r) :
    r.n_outliers = (data.filter fun v => decide (v < r.lower_fence ∨ v > r.upper_fence)).length := by
  obtain ⟨-, rfl⟩ := descNum_some h
  rfl

theorem C2_outlier_count_witness :
    (numRecord "x" [(0 : ℚ), 10] 0).n_outliers
      = ([(0 : ℚ), 10].filter fun v =>
          decide (v < (numRecord "x" [(0 : ℚ), 10] 0).lower_fence ∨
            v > (numRecord "x" [(0 : ℚ), 10] 0).upper_fence)).length :=
  C2_outlier_count "x" [0, 10] 0 (numRecord "x" [0, 10] 0) rfl

/-- Claim C3 counterexample: calling `descriptive_stats_numeric` with a
negative fence factor does not raise anything — on `[1, 2, 3, 4]` with
`k = -1` it returns a record (the code contains no validation and no
`InvalidConfigurationError`). -/
theorem C3_neg_factor_counterexample :
    (descriptive_stats_numeric "x" [(1 : ℚ), 2, 3, 4] (-1)).isSome = true := by
  rfl

/-- Claim C3 (amended): `descriptive_stats_numeric` performs no fence-factor
validation; for every non-empty input and every fence factor `k` — negative
values included — it returns the ordinary record computed with the same
formulas, and no error is raised. -/
theorem C3_neg_factor_amended (name : String) (data : List ℚ) (k : ℚ) (hne : data ≠ []) :
    descriptive_stats_numeric name data k = some (numRecord name data k) := by
  unfold descriptive_stats_numeric
  rw [if_neg fun h0 => hne (List.length_eq_zero.mp h0)]

theorem C3_neg_factor_amended_witness :
    descriptive_stats_numeric "x" [(1 : ℚ)] (-5) = some (numRecord "x" [(1 : ℚ)] (-5)) :=
  C3_neg_factor_amended "x" [1] (-5) (by simp)

/-- Claim C4: with a non-negative fence factor, the returned record satisfies
`lower_fence ≤ q1 ≤ median ≤ q3 ≤ upper_fence` and `iqr = q3 - q1 ≥ 0`. -/
theorem C4_order_invariant (name : String) (data : List ℚ) (k : ℚ) (r : NumericStatsRecord)
    (hk : 0 ≤ k) (h : descriptive_stats_numeric name data k = some r) :
    r.lower_fence ≤ r.q1 ∧ r.q1 ≤ r.median ∧ r.median ≤ r.q3 ∧ r.q3 ≤ r.upper_fence ∧
    r.iqr = r.q3 - r.q1 ∧ 0 ≤ r.iqr := by
  obtain ⟨hne, rfl⟩ := descNum_some h
  have h13 : percentileOf data 25 ≤ percentileOf data 50 :=
    percentileOf_mono data hne (by norm_num) (by norm_num) (by norm_num)
  have h35 : percentileOf data 50 ≤ percentileOf data 75 :=
    percentileOf_mono data hne (by norm_num) (by norm_num) (by norm_num)
  have hiqr : 0 ≤ iqrOf data := by
    unfold iqrOf
    linarith
  have hki : 0 ≤ k * iqrOf data := mul_nonneg hk hiqr
  refine ⟨?_, h13, h35, ?_, rfl, hiqr⟩
  · show lowerFence data k ≤ percentileOf data 25
    unfold lowerFence
    linarith
  · show percentileOf data 75 ≤ upperFence data k
    unfold upperFence
    linarith

theorem C4_order_invariant_witness :
    (numRecord "x" [(1 : ℚ), 2, 3] 2).lower_fence ≤ (numRecord "x" [(1 : ℚ), 2, 3] 2).q1 ∧
    (numRecord "x" [(1 : ℚ), 2, 3] 2).q1 ≤ (numRecord "x" [(1 : ℚ), 2, 3] 2).median ∧
    (numRecord "x" [(1 : ℚ), 2, 3] 2).median ≤ (numRecord "x" [(1 : ℚ), 2, 3] 2).q3 ∧
    (numRecord "x" [(1 : ℚ), 2, 3] 2).q3 ≤ (numRecord "x" [(1 : ℚ), 2, 3] 2).upper_fence ∧
    (numRecord "x" [(1 : ℚ), 2, 3] 2).iqr
        = (numRecord "x" [(1 : ℚ), 2, 3] 2).q3 - (numRecord "x" [(1 : ℚ), 2, 3] 2).q1 ∧
    0 ≤ (numRecord "x" [(1 : ℚ), 2, 3] 2).iqr :=
  C4_order_invariant "x" [1, 2, 3] 2 (numRecord "x" [1, 2, 3] 2) (by norm_num) rfl

theorem int_toNat_two : Int.toNat 2 = 2 := rfl

theorem int_toNat_three : Int.toNat 3 = 3 := rfl

theorem int_toNat_four : Int.toNat 4 = 4 := rfl

/-- Claim C9: on the numeric column `[1, 2, 3, 4, 5, 100]` with the default
fence factor `1.5`, the record has `min = 1`, `max = 100`, `median = 3.5`,
`q1 = 2.25`, `q3 = 4.75`, `iqr = 2.5`, fences `-1.5` and `8.5`, and exactly
one outlier, the value `100`. -/
theorem C9_example_record :
    (descriptive_stats_numeric "x" [1, 2, 3, 4, 5, 100] (3 / 2)).map
        (fun r => (r.min, r.max, r.median, r.q1, r.q3, r.iqr,
          r.lower_fence, r.upper_fence, r.n_outliers))
      = some (1, 100, 7 / 2, 9 / 4, 19 / 4, 5 / 2, -3 / 2, 17 / 2, 1) ∧
    ([1, 2, 3, 4, 5, 100] : List ℚ).filter
        (fun v => decide (v < lowerFence [1, 2, 3, 4, 5, 100] (3 / 2) ∨
          v > upperFence [1, 2, 3, 4, 5, 100] (3 / 2)))
      = [100] := by
  have hq1 : percentileOf [1, 2, 3, 4, 5, 100] 25 = 9 / 4 := by
    have hc : ⌈(5 : ℚ) / 4⌉ = 2 := by
      rw [Int.ceil_eq_iff]
      constructor <;> norm_num
    have hf : ⌊(5 : ℚ) / 4⌋ = 1 := by norm_num
    norm_num [percentileOf, sortData, interpAt, List.insertionSort, List.orderedInsert,
      List.getD, List.get?, hc, hf, int_toNat_two]
  have hq2 : percentileOf [1, 2, 3, 4, 5, 100] 50 = 7 / 2 := by
    have hc : ⌈(5 : ℚ) / 2⌉ = 3 := by
      rw [Int.ceil_eq_iff]
      constructor <;> norm_num
    have hf : ⌊(5 : ℚ) / 2⌋ = 2 := by norm_num
    norm_num [percentileOf, sortData, interpAt, List.insertionSort, List.orderedInsert,
      List.getD, List.get?, hc, hf, int_toNat_two, int_toNat_three]
  have hq3 : percentileOf [1, 2, 3, 4, 5, 100] 75 = 19 / 4 := by
    have hc : ⌈(15 : ℚ) / 4⌉ = 4 := by
      rw [Int.ceil_eq_iff]
      constructor <;> norm_num
    have hf : ⌊(15 : ℚ) / 4⌋ = 3 := by norm_num
    norm_num [percentileOf, sortData, interpAt, List.insertionSort, List.orderedInsert,
      List.getD, List.get?, hc, hf, int_toNat_three, int_toNat_four]
  have hiqr : iqrOf [1, 2, 3, 4, 5, 100] = 5 / 2 := by
    unfold iqrOf
    rw [hq1, hq3]
    norm_num
  have hlf : lowerFence [1, 2, 3, 4, 5, 100] (3 / 2) = -3 / 2 := by
    unfold lowerFence
    rw [hq1, hiqr]
    norm_num
  have huf : upperFence [1, 2, 3, 4, 5, 100] (3 / 2) = 17 / 2 := by
    unfold upperFence
    rw [hq3, hiqr]
    norm_num
  have hfil : ([1, 2, 3, 4, 5, 100] : List ℚ).filter
      (fun v => decide (v < lowerFence [1, 2, 3, 4, 5, 100] (3 / 2) ∨
        v > upperFence [1, 2, 3, 4, 5, 100] (3 / 2)))
      = [100] := by
    simp only [hlf, huf]
    norm_num [List.filter_cons, List.filter_nil, decide_eq_true_eq]
  refine ⟨?_, hfil⟩
  rw [show descriptive_stats_numeric "x" [1, 2, 3, 4, 5, 100] (3 / 2)
      = some (numRecord "x" [1, 2, 3, 4, 5, 100] (3 / 2)) from rfl]
  simp only [Option.map_some', Option.some.injEq, Prod.mk.injEq, numRecord]
  refine ⟨?_, ?_, hq2, hq1, hq3, hiqr, hlf, huf, ?_⟩
  · norm_num [listMin, List.foldl, min_def]
  · norm_num [listMax, List.foldl, max_def]
  · rw [hfil]
    rfl

/-! ### Value-count ranking lemmas and claim C5 -/

theorem valueCounts_perm (data : List String) :
    (valueCounts data).Perm (data.dedup.map fun v => (v, data.count v)) :=
  List.perm_insertionSort _ _

theorem valueCounts_length (data : List String) :
    (valueCounts data).length = data.dedup.length := by
  rw [(valueCounts_perm data).length_eq, List.length_map]

theorem mem_valueCounts {data : List String} {v : String} (hv : v ∈ data) :
    (v, data.count v) ∈ valueCounts data := by
  rw [(valueCounts_perm data).mem_iff]
  exact List.mem_map_of_mem _ (List.mem_dedup.mpr hv)

theorem valueCounts_sorted (data : List String) :
    List.Sorted countDescRel (valueCounts data) :=
  List.sorted_insertionSort _ _

theorem descCat_some {name : String} {data : List String} {r : CategoricalStatsRecord}
    (h : descriptive_stats_categorical name data = some r) :
    ∃ m mc rest, valueCounts data = (m, mc) :: rest ∧
      r = { column := name
            n := data.length
            n_unique := data.dedup.length
            mode := m
            mode_count := mc
            second_most_common := rest.head?.map Prod.fst
            second_most_common_count := rest.head?.map Prod.snd } := by
  unfold descriptive_stats_categorical at h
  split at h
  · cases h
  · next m mc rest heq =>
      exact ⟨m, mc, rest, heq, (Option.some.inj h).symm⟩

/-- Claim C5: in a record returned by `descriptive_stats_categorical`, when
at least two distinct values exist the second-most-common count is present,
is at most the mode count, and dominates the frequency of every other value;
with fewer than two distinct values both second-most-common fields are
`none`. -/
theorem C5_mode_ranking (name : String) (data : List String) (r : CategoricalStatsRecord)
    (h : descriptive_stats_categorical name data = some r) :
    (2 ≤ r.n_unique →
      ∃ sc, r.second_most_common_count = some sc ∧ sc ≤ r.mode_count ∧
        ∀ v ∈ data, v ≠ r.mode → some v ≠ r.second_most_common →
          data.count v ≤ sc) ∧
    (r.n_unique < 2 → r.second_most_common = none ∧ r.second_most_common_count = none) := by
  obtain ⟨m, mc, rest, hvc, rfl⟩ := descCat_some h
  have hsorted := valueCounts_sorted data
  rw [hvc] at hsorted
  have hlen : rest.length + 1 = data.dedup.length := by
    have hl := valueCounts_length data
    rw [hvc] at hl
    simpa using hl
  constructor
  · intro h2
    have h2' : 2 ≤ data.dedup.length := h2
    cases rest with
    | nil =>
        exfalso
        simp only [List.length_nil] at hlen
        omega
    | cons p rest2 =>
        refine ⟨p.2, by simp, ?_, ?_⟩
        · exact (List.sorted_cons.mp hsorted).1 p (by simp)
        · intro v hv hvm hvs
          have hmem := mem_valueCounts hv
          rw [hvc] at hmem
          rcases List.mem_cons.mp hmem with h1 | hmem2
          · exact absurd (congrArg Prod.fst h1) hvm
          · rcases List.mem_cons.mp hmem2 with h1 | hmem3
            · exfalso
              apply hvs
              simp only [List.head?, Option.map_some']
              exact congrArg (fun x => some x.1) h1
            · exact (List.sorted_cons.mp (List.sorted_cons.mp hsorted).2).1 _ hmem3
  · intro hlt
    have hlt' : data.dedup.length < 2 := hlt
    cases rest with
    | nil => simp
    | cons p rest2 =>
        exfalso
        simp only [List.length_cons] at hlen
        omega

def w5rec : CategoricalStatsRecord :=
  { column := "x"
    n := 4
    n_unique := 3
    mode := "a"
    mode_count := 2
    second_most_common := some "b"
    second_most_common_count := some 1 }

theorem C5_mode_ranking_witness :
    descriptive_stats_categorical "x" ["a", "a", "b", "c"] = some w5rec ∧
    w5rec.second_most_common_count = some 1 ∧ 1 ≤ w5rec.mode_count ∧
    ["a", "a", "b", "c"].count "c" ≤ 1 := by
  have h : descriptive_stats_categorical "x" ["a", "a", "b", "c"] = some w5rec := by decide
  obtain ⟨h2, -⟩ := C5_mode_ranking "x" ["a", "a", "b", "c"] w5rec h
  obtain ⟨sc, hsc, hle, hall⟩ := h2 (by decide)
  have hsc1 : sc = 1 := by
    have h1 := hsc
    rw [show w5rec.second_most_common_count = some 1 from rfl] at h1
    exact (Option.some.inj h1).symm
  subst hsc1
  exact ⟨h, hsc, hle, hall "c" (by decide) (by decide) (by decide)⟩

/-! ### Combined-analysis lemmas and claims C7, C8, C10 -/

theorem length_filterMap_add_countP {α : Type} (vs : List (Option α)) :
    (vs.filterMap id).length + vs.countP (fun o => o.isNone) = vs.length := by
  induction vs with
  | nil => rfl
  | cons o vs ih =>
      cases o <;> simp [List.countP_cons] <;> omega

theorem analyzeColumns_length {dup : ℕ} {cs : List Column} {rs : List CombinedRecord}
    (h : analyzeColumns dup cs = some rs) : rs.length = cs.length := by
  induction cs generalizing rs with
  | nil =>
      simp only [analyzeColumns] at h
      cases h
      rfl
  | cons c cs ih =>
      simp only [analyzeColumns] at h
      cases hc : combinedOfColumn dup c with
      | none =>
          rw [hc] at h
          cases h
      | some r =>
          rw [hc] at h
          cases hcs : analyzeColumns dup cs with
          | none =>
              rw [hcs] at h
              cases h
          | some rs' =>
              rw [hcs] at h
              cases h
              simp [ih hcs]

theorem analyzeColumns_get {dup : ℕ} {cs : List Column} {rs : List CombinedRecord}
    (h : analyzeColumns dup cs = some rs) :
    ∀ i (hi : i < cs.length) (hi' : i < rs.length),
      combinedOfColumn dup (cs.get ⟨i, hi⟩) = some (rs.get ⟨i, hi'⟩) := by
  induction cs generalizing rs with
  | nil =>
      intro i hi hi'
      exact absurd hi (by simp)
  | cons c cs ih =>
      simp only [analyzeColumns] at h
      cases hc : combinedOfColumn dup c with
      | none =>
          rw [hc] at h
          cases h
      | some r =>
          rw [hc] at h
          cases hcs : analyzeColumns dup cs with
          | none =>
              rw [hcs] at h
              cases h
          | some rs' =>
              rw [hcs] at h
              cases h
              intro i hi hi'
              cases i with
              | zero => exact hc
              | succ j =>
                  exact ih hcs j (Nat.lt_of_succ_lt_succ hi) (Nat.lt_of_succ_lt_succ hi')

theorem analyzeColumns_none {dup : ℕ} {cs : List Column} {c : Column} (hc : c ∈ cs)
    (h0 : combinedOfColumn dup c = none) : analyzeColumns dup cs = none := by
  induction cs with
  | nil => cases hc
  | cons d cs ih =>
      rcases List.mem_cons.mp hc with rfl | hmem
      · cases hcs : analyzeColumns dup cs <;> simp [analyzeColumns, h0, hcs]
      · cases hd : combinedOfColumn dup d <;> simp [analyzeColumns, hd, ih hmem]

theorem combinedOfColumn_some {dup : ℕ} {c : Column} {r : CombinedRecord}
    (h : combinedOfColumn dup c = some r) :
    r.column = c.name ∧ r.n + missingCount c = c.length ∧
    r.missing_value = missingCount c ∧
    r.missing_percentage = missingPct (missingCount c) c.length := by
  obtain ⟨name, cdata⟩ := c
  cases cdata with
  | numeric vs =>
      simp only [combinedOfColumn] at h
      rcases Option.map_eq_some'.mp h with ⟨s, hs, rfl⟩
      obtain ⟨-, rfl⟩ := descNum_some hs
      exact ⟨rfl, length_filterMap_add_countP vs, rfl, rfl⟩
  | categorical vs =>
      simp only [combinedOfColumn] at h
      rcases Option.map_eq_some'.mp h with ⟨s, hs, rfl⟩
      obtain ⟨m, mc, rest, hvc, rfl⟩ := descCat_some hs
      exact ⟨rfl, length_filterMap_add_countP vs, rfl, rfl⟩

theorem combinedOfColumn_none_of {dup : ℕ} {c : Column} (h0 : nonMissingCount c = 0) :
    combinedOfColumn dup c = none := by
  obtain ⟨name, cdata⟩ := c
  cases cdata with
  | numeric vs =>
      have h0' : (vs.filterMap id).length = 0 := h0
      simp [combinedOfColumn, descriptive_stats_numeric, h0']
  | categorical vs =>
      have h0' : (vs.filterMap id).length = 0 := h0
      have hnil : vs.filterMap id = [] := List.length_eq_zero.mp h0'
      show (descriptive_stats_categorical name (vs.filterMap id)).map _ = none
      rw [hnil]
      rfl

/-- Claim C7: when `analyze_dataset` succeeds it returns exactly one row per
input column, and the rows carry the column names in the input order. -/
theorem C7_row_per_column (t : Table) (rows : List CombinedRecord)
    (h : analyze_dataset t = some rows) :
    rows.length = t.cols.length ∧
    ∀ i (hi : i < rows.length) (hi' : i < t.cols.length),
      (rows.get ⟨i, hi⟩).column = (t.cols.get ⟨i, hi'⟩).name := by
  refine ⟨analyzeColumns_length h, fun i hi hi' => ?_⟩
  exact (combinedOfColumn_some (analyzeColumns_get h i hi' hi)).1

def w7t : Table := ⟨[⟨"a", ColData.numeric [some 1]⟩]⟩

def w7rows : List CombinedRecord :=
  [combinedNumeric (Table.duplicatedCount w7t) ⟨"a", ColData.numeric [some 1]⟩
     (numRecord "a" [(1 : ℚ)] (3 / 2))]

theorem C7_row_per_column_witness :
    w7rows.length = w7t.cols.length ∧
    (w7rows.get ⟨0, by decide⟩).column = (w7t.cols.get ⟨0, by decide⟩).name :=
  ⟨(C7_row_per_column w7t w7rows rfl).1,
   (C7_row_per_column w7t w7rows rfl).2 0 (by decide) (by decide)⟩

/-- Claim C8: a column with zero non-missing values after dropping makes
`analyze_dataset` fail as a whole: the per-column statistics step yields no
record and the error propagates, so no result table is produced at all. -/
theorem C8_empty_column_fails (t : Table) (c : Column) (hc : c ∈ t.cols)
    (h0 : nonMissingCount c = 0) : analyze_dataset t = none :=
  analyzeColumns_none hc (combinedOfColumn_none_of h0)

def w8c : Column := ⟨"a", ColData.numeric [none]⟩

def w8t : Table := ⟨[w8c]⟩

theorem C8_empty_column_fails_witness : analyze_dataset w8t = none :=
  C8_empty_column_fails w8t w8c (by decide) (by decide)

/-- Claim C10: on success every output row of `analyze_dataset` satisfies
`n + missing_value = total row count`: `n` counts exactly the non-missing
values of its column in both the numeric and the categorical branch. -/
theorem C10_n_plus_missing (t : Table) (nrows : ℕ) (hwf : ∀ c ∈ t.cols, c.length = nrows)
    (rows : List CombinedRecord) (h : analyze_dataset t = some rows) :
    ∀ i (hi : i < rows.length) (hi' : i < t.cols.length),
      (rows.get ⟨i, hi⟩).n + (rows.get ⟨i, hi⟩).missing_value = nrows := by
  intro i hi hi'
  obtain ⟨-, hn, hm, -⟩ := combinedOfColumn_some (analyzeColumns_get h i hi' hi)
  rw [hm, hn]
  exact hwf _ (List.get_mem t.cols i hi')

def w10t : Table := ⟨[⟨"b", ColData.numeric [some 2, none]⟩]⟩

def w10rows : List CombinedRecord :=
  [combinedNumeric (Table.duplicatedCount w10t) ⟨"b", ColData.numeric [some 2, none]⟩
     (numRecord "b" [(2 : ℚ)] (3 / 2))]

theorem C10_n_plus_missing_witness :
    (w10rows.get ⟨0, by decide⟩).n + (w10rows.get ⟨0, by decide⟩).missing_value = 2 :=
  C10_n_plus_missing w10t 2 (by decide) w10rows rfl 0 (by decide) (by decide)

/-! ### Rounding lemmas and claim C6 -/

theorem missingCount_le_length (c : Column) : missingCount c ≤ c.length := by
  obtain ⟨name, cdata⟩ := c
  cases cdata <;> exact List.countP_le_length _

theorem roundHalfEven_nonneg {q : ℚ} (h : 0 ≤ q) : 0 ≤ roundHalfEven q := by
  have h0 : (0 : ℤ) ≤ ⌊q⌋ := Int.floor_nonneg.mpr h
  unfold roundHalfEven
  split_ifs <;> omega

theorem roundHalfEven_le {q : ℚ} {z : ℤ} (h : q ≤ (z : ℚ)) : roundHalfEven q ≤ z := by
  have hfz : ⌊q⌋ ≤ z := by
    have hm := Int.floor_mono h
    rwa [Int.floor_intCast] at hm
  have hfloor := Int.floor_le q
  unfold roundHalfEven
  split_ifs with h1 h2 h3
  · exact hfz
  · have hzq : ⌊q⌋ < z := by
      by_contra hc
      push_neg at hc
      have hcq : (z : ℚ) ≤ (⌊q⌋ : ℚ) := by exact_mod_cast hc
      linarith
    omega
  · exact hfz
  · have hzq : ⌊q⌋ < z := by
      by_contra hc
      push_neg at hc
      have hcq : (z : ℚ) ≤ (⌊q⌋ : ℚ) := by exact_mod_cast hc
      linarith
    omega

theorem round2_bounds {x : ℚ} (h0 : 0 ≤ x) (h1 : x ≤ 100) :
    0 ≤ round2 x ∧ round2 x ≤ 100 := by
  have ha : 0 ≤ roundHalfEven (x * 100) := roundHalfEven_nonneg (by linarith)
  have hb : roundHalfEven (x * 100) ≤ 10000 := roundHalfEven_le (z := 10000) (by push_cast; linarith)
  have ha' : (0 : ℚ) ≤ (roundHalfEven (x * 100) : ℚ) := by exact_mod_cast ha
  have hb' : (roundHalfEven (x * 100) : ℚ) ≤ 10000 := by exact_mod_cast hb
  unfold round2
  constructor
  · positivity
  · rw [div_le_iff₀ (by norm_num : (0 : ℚ) < 100)]
    linarith

theorem missingPct_some {m len : ℕ} (hlen : len ≠ 0) (hm : m ≤ len) :
    missingPct m len = some (round2 ((m : ℚ) / (len : ℚ) * 100)) ∧
    0 ≤ round2 ((m : ℚ) / (len : ℚ) * 100) ∧ round2 ((m : ℚ) / (len : ℚ) * 100) ≤ 100 := by
  have hlp : (0 : ℚ) < (len : ℚ) := by exact_mod_cast Nat.pos_of_ne_zero hlen
  have hx0 : 0 ≤ (m : ℚ) / (len : ℚ) * 100 := by positivity
  have hmq : (m : ℚ) ≤ (len : ℚ) := by exact_mod_cast hm
  have hdiv : (m : ℚ) / (len : ℚ) ≤ 1 := (div_le_one hlp).mpr hmq
  have hx1 : (m : ℚ) / (len : ℚ) * 100 ≤ 100 := by nlinarith
  obtain ⟨hb0, hb1⟩ := round2_bounds hx0 hx1
  exact ⟨by simp [missingPct, hlen], hb0, hb1⟩

def t6bad : Table := ⟨[⟨"c", ColData.numeric []⟩]⟩

/-- Claim C6 counterexample: on a table with one column and zero rows,
`overview_df` emits a row whose `missing_percentage` is the `NaN` produced
by the `0 / 0` division in the source (embedded as `none`), which is neither
`round(missing_count / total × 100, 2)` nor a value in `[0, 100]`. -/
theorem C6_missing_percentage_counterexample :
    (overview_df t6bad).map (fun r => r.missing_percentage) = [none] := rfl

/-- Claim C6 (amended): for every table all of whose columns have at least
one row, every row of `overview_df` and every row of a successful
`analyze_dataset` carries
`missing_percentage = round(missing_count / total_row_count × 100, 2)`,
and that value lies in `[0, 100]`. -/
theorem C6_missing_percentage_amended (t : Table) (hlen : ∀ c ∈ t.cols, c.length ≠ 0) :
    (∀ i (hi : i < (overview_df t).length) (hi' : i < t.cols.length),
      ((overview_df t).get ⟨i, hi⟩).missing_percentage
          = some (round2 ((missingCount (t.cols.get ⟨i, hi'⟩) : ℚ)
              / ((t.cols.get ⟨i, hi'⟩).length : ℚ) * 100)) ∧
      ∀ p : ℚ, ((overview_df t).get ⟨i, hi⟩).missing_percentage = some p →
        0 ≤ p ∧ p ≤ 100) ∧
    (∀ rows, analyze_dataset t = some rows →
      ∀ i (hi : i < rows.length) (hi' : i < t.cols.length),
        (rows.get ⟨i, hi⟩).missing_percentage
            = some (round2 ((missingCount (t.cols.get ⟨i, hi'⟩) : ℚ)
                / ((t.cols.get ⟨i, hi'⟩).length : ℚ) * 100)) ∧
        ∀ p : ℚ, (rows.get ⟨i, hi⟩).missing_percentage = some p → 0 ≤ p ∧ p ≤ 100) := by
  constructor
  · intro i hi hi'
    have hov : (overview_df t).get ⟨i, hi⟩
        = overviewRecord t.duplicatedCount (t.cols.get ⟨i, hi'⟩) := by
      simp only [overview_df, List.get_eq_getElem, List.getElem_map]
    have hc0 : (t.cols.get ⟨i, hi'⟩).length ≠ 0 := hlen _ (List.get_mem t.cols i hi')
    obtain ⟨heq, hb0, hb1⟩ := missingPct_some hc0 (missingCount_le_length _)
    rw [hov]
    refine ⟨heq, fun p hp => ?_⟩
    rw [show (overviewRecord t.duplicatedCount (t.cols.get ⟨i, hi'⟩)).missing_percentage
        = missingPct (missingCount (t.cols.get ⟨i, hi'⟩)) (t.cols.get ⟨i, hi'⟩).length
        from rfl, heq] at hp
    cases Option.some.inj hp
    exact ⟨hb0, hb1⟩
  · intro rows hrows i hi hi'
    obtain ⟨-, -, -, hmp⟩ := combinedOfColumn_some (analyzeColumns_get hrows i hi' hi)
    have hc0 : (t.cols.get ⟨i, hi'⟩).length ≠ 0 := hlen _ (List.get_mem t.cols i hi')
    obtain ⟨heq, hb0, hb1⟩ := missingPct_some hc0 (missingCount_le_length _)
    rw [hmp]
    refine ⟨heq, fun p hp => ?_⟩
    rw [heq] at hp
    cases Option.some.inj hp
    exact ⟨hb0, hb1⟩

def w6t : Table := ⟨[⟨"c", ColData.numeric [some 1]⟩]⟩

theorem C6_missing_percentage_amended_witness :
    ((overview_df w6t).get ⟨0, by decide⟩).missing_percentage
        = some (round2 ((missingCount (w6t.cols.get ⟨0, by decide⟩) : ℚ)
            / ((w6t.cols.get ⟨0, by decide⟩).length : ℚ) * 100)) :=
  ((C6_missing_percentage_amended w6t (by decide)).1 0 (by decide) (by decide)).1
